import Mathlib

/-!
Shallow embedding of the reconciliation and batching core of the
`seller-apis` repository (`seller.py` and `market.py`).

Conventions of the embedding:
* Python strings are Lean `String`; character-level operations
  (`str.split`, `re.sub`, `int(...)`) are modelled on `List Char`.
* A Python function that can raise on some inputs is modelled as a
  function into `Option` (`none` = an exception escapes the function).
* A feed row (`watch_remnants` element) carries its three fields used by
  the core, each already stringified the way the code stringifies them.
* The in-place mutation of the `offer_ids` list performed by
  `create_stocks` (`offer_ids.remove(...)`) is modelled by state passing:
  the function returns the final value of the list next to its result.
-/

namespace SellerApis

/-- One row of the remnants feed, as consumed by `create_stocks` /
`create_prices`.  `kod` is `str(watch.get("Код"))`, `kolichestvo` is
`str(watch.get("Количество"))`, `tsena` is `watch.get("Цена")`. -/
structure FeedRecord where
  kod : String
  kolichestvo : String
  tsena : String
deriving DecidableEq, Repr

/-- Value of a list of decimal digit characters; `none` when the list is
empty or contains a non-digit.  Helper for the model of Python `int`. -/
def decimalDigits (cs : List Char) : Option Nat :=
  if cs ≠ [] ∧ cs.all Char.isDigit then
    some (cs.foldl (fun n c => 10 * n + (c.toNat - 48)) 0)
  else
    none

/-- Model of Python `int(s)` on a string: surrounding blanks are
stripped, an optional sign is followed by decimal digits; anything else
raises `ValueError`, modelled as `none`.  (Python also accepts other
whitespace and digit-group underscores; those inputs do not occur in the
claims and are conservatively rejected here.) -/
def pyInt (s : String) : Option Int :=
  let cs := ((s.toList.dropWhile (· = ' ')).reverse.dropWhile (· = ' ')).reverse
  match cs with
  | '-' :: rest => (decimalDigits rest).map (fun n => -(n : Int))
  | '+' :: rest => (decimalDigits rest).map (fun n => (n : Int))
  | _ => (decimalDigits cs).map (fun n => (n : Int))

/-- The quantity bucketing applied inside `create_stocks`
(seller.py lines 235-241, market.py lines 256-262): the stringified
`Количество` equal to `">10"` gives `100`, equal to `"1"` gives `0`, and
otherwise the value is `int(...)` of the raw quantity. -/
def normalizeQuantity (count : String) : Option Int :=
  if count = ">10" then some 100
  else if count = "1" then some 0
  else pyInt count

/-- One element of the list built by seller.py `create_stocks`:
`{"offer_id": ..., "stock": ...}`. -/
structure StockUpdate where
  offer_id : String
  stock : Int
deriving DecidableEq, Repr

/-- The first loop of `create_stocks` (seller.py lines 233-243): walk the
feed, and for each record whose stringified code is in `offer_ids`,
normalize the quantity, emit the update and remove the code from
`offer_ids` (Python `list.remove` deletes the first occurrence, i.e.
`List.erase`).  Returns the matched updates in feed order together with
the final value of the mutated `offer_ids` list; `none` when a matched
record's quantity fails to parse (`int` raises). -/
def stocksLoop : List FeedRecord → List String → Option (List StockUpdate × List String)
  | [], offer_ids => some ([], offer_ids)
  | w :: ws, offer_ids =>
    if w.kod ∈ offer_ids then
      match normalizeQuantity w.kolichestvo with
      | none => none
      | some stock =>
        match stocksLoop ws (offer_ids.erase w.kod) with
        | none => none
        | some (ms, rest) => some (⟨w.kod, stock⟩ :: ms, rest)
    else
      stocksLoop ws offer_ids

/-- seller.py `create_stocks` (lines 216-247): the matching loop above,
then one zero-stock update for every identifier still left in the
(mutated) `offer_ids` list.  The second component of the result is the
final value of the caller's `offer_ids` list after the in-place
mutation. -/
def create_stocks (watch_remnants : List FeedRecord) (offer_ids : List String) :
    Option (List StockUpdate × List String) :=
  match stocksLoop watch_remnants offer_ids with
  | none => none
  | some (ms, remaining) =>
    some (ms ++ remaining.map (fun offer_id => ⟨offer_id, 0⟩), remaining)

/-- Model of Python `s.split(sep)` for a one-character separator, on the
character list: always returns at least one (possibly empty) group. -/
def pySplitOn (sep : Char) : List Char → List (List Char)
  | [] => [[]]
  | c :: cs =>
    if c = sep then [] :: pySplitOn sep cs
    else
      match pySplitOn sep cs with
      | [] => [[c]]
      | g :: gs => (c :: g) :: gs

/-- seller.py `price_conversion` (lines 288-302):
`re.sub("[^0-9]", "", price.split(".")[0])` — keep the part of the
string before the first dot and delete every non-digit character from
it.  (`Char.isDigit` is exactly the ASCII digits `0`-`9`, matching the
regex class `[0-9]`.) -/
def price_conversion (price : String) : String :=
  String.mk (((pySplitOn '.' price.toList).headD []).filter Char.isDigit)

/-- One element of the list built by seller.py `create_prices`; the three
constant fields (`auto_action_enabled`, `currency_code`, `old_price`)
are omitted from the model, `price` is the `price_conversion` string. -/
structure PriceUpdate where
  offer_id : String
  price : String
deriving DecidableEq, Repr

/-- seller.py `create_prices` (lines 250-285): one price entry per feed
record whose stringified code is a member of `offer_ids`.  Unlike
`create_stocks` it never removes anything from `offer_ids`, and it never
raises (the price field stays a string). -/
def create_prices : List FeedRecord → List String → List PriceUpdate
  | [], _ => []
  | w :: ws, offer_ids =>
    if w.kod ∈ offer_ids then
      ⟨w.kod, price_conversion w.tsena⟩ :: create_prices ws offer_ids
    else
      create_prices ws offer_ids

/-- seller.py `divide` (lines 305-320): `for i in range(0, len(lst), n):
yield lst[i : i + n]` — the successive slices of length `n`.  For
`n = 0` Python's `range` raises before yielding anything; this is
modelled as no chunks (the claims only concern `n > 0`). -/
def divide {α : Type} : List α → Nat → List (List α)
  | _, 0 => []
  | [], _ + 1 => []
  | x :: xs, n + 1 => (x :: List.take n xs) :: divide (List.drop n xs) (n + 1)
termination_by lst _ => lst.length
decreasing_by
  simp only [List.length_drop, List.length_cons]
  omega

namespace Seller

/-- One element of the Ozon product list (the only field `get_offer_ids`
reads from it). -/
structure Product where
  offer_id : String
deriving DecidableEq, Repr

/-- One response of the Ozon listing endpoint, as read by
`get_offer_ids` (seller.py lines 98-110).  The `last_id` continuation
value only selects which page the server sends next; responses are
therefore modelled as a sequence indexed by the call number. -/
structure ProductPage where
  items : List Product
  total : Nat
deriving Repr

/-- The `while True` loop of seller.py `get_offer_ids` (lines 100-106),
with an explicit fuel bound: extend the accumulator with the page's
items and stop as soon as the page's reported `total` equals the
accumulated length.  `none` means the loop did not stop within `fuel`
iterations. -/
def pageLoop (pages : Nat → ProductPage) : Nat → Nat → List Product → Option (List Product)
  | 0, _, _ => none
  | fuel + 1, i, acc =>
    if (pages i).total = (acc ++ (pages i).items).length then some (acc ++ (pages i).items)
    else pageLoop pages fuel (i + 1) (acc ++ (pages i).items)

/-- seller.py `get_offer_ids` (lines 81-110): run the pagination loop
from an empty accumulator and project out each product's `offer_id`. -/
def get_offer_ids (pages : Nat → ProductPage) (fuel : Nat) : Option (List String) :=
  (pageLoop pages fuel 0 []).map (fun l => l.map Product.offer_id)

/-- The concatenation of the items of the first `i` pages (the
accumulator contents when the loop is about to issue call `i`). -/
def accPages (pages : Nat → ProductPage) (i : Nat) : List Product :=
  ((List.range i).map (fun j => (pages j).items)).flatten

/-- The loop's stop test as evaluated right after call `k`: the `total`
reported by page `k` equals the number of items accumulated through
page `k`. -/
abbrev stopAt (pages : Nat → ProductPage) (k : Nat) : Prop :=
  (pages k).total = (accPages pages (k + 1)).length

/-- The channel's listing collection runs out of any fuel bound: the
`while True` loop of `get_offer_ids` never terminates on this response
sequence. -/
def neverFinishes (pages : Nat → ProductPage) : Prop :=
  ∀ fuel, get_offer_ids pages fuel = none

/-- A malformed Ozon response sequence: every page is empty yet reports
`total = 1`, so the accumulated count never equals the total. -/
def badPages : Nat → ProductPage := fun _ => ⟨[], 1⟩

end Seller

namespace Market

/-- One element of `offerMappingEntries` (the only field `get_offer_ids`
reads from it is `offer.shopSku`). -/
structure OfferEntry where
  shopSku : String
deriving DecidableEq, Repr

/-- One response of the Yandex.Market listing endpoint, as read by
`get_offer_ids` (market.py lines 211-222).  The page token only selects
which page the server sends next; responses are modelled as a sequence
indexed by the call number, and the Python falsy test `if not page`
on the token is modelled as equality with the empty string. -/
structure ProductPage where
  offerMappingEntries : List OfferEntry
  nextPageToken : String
deriving Repr

/-- The `while True` loop of market.py `get_offer_ids` (lines 213-218),
with an explicit fuel bound: extend the accumulator with the page's
entries and stop as soon as the page carries no next-page token. -/
def pageLoop (pages : Nat → ProductPage) : Nat → Nat → List OfferEntry → Option (List OfferEntry)
  | 0, _, _ => none
  | fuel + 1, i, acc =>
    if (pages i).nextPageToken = "" then some (acc ++ (pages i).offerMappingEntries)
    else pageLoop pages fuel (i + 1) (acc ++ (pages i).offerMappingEntries)

/-- market.py `get_offer_ids` (lines 196-222): run the pagination loop
from an empty accumulator and project out each entry's `shopSku`. -/
def get_offer_ids (pages : Nat → ProductPage) (fuel : Nat) : Option (List String) :=
  (pageLoop pages fuel 0 []).map (fun l => l.map OfferEntry.shopSku)

/-- The concatenation of the entries of the first `i` pages. -/
def accPages (pages : Nat → ProductPage) (i : Nat) : List OfferEntry :=
  ((List.range i).map (fun j => (pages j).offerMappingEntries)).flatten

/-- The loop's stop test after call `k`: page `k` reports no next-page
token. -/
abbrev stopAt (pages : Nat → ProductPage) (k : Nat) : Prop :=
  (pages k).nextPageToken = ""

/-- The channel's listing collection runs out of any fuel bound. -/
def neverFinishes (pages : Nat → ProductPage) : Prop :=
  ∀ fuel, get_offer_ids pages fuel = none

/-- A malformed Yandex.Market response sequence: every page repeats the
same non-empty page token, so the loop's stop test never fires. -/
def badPages : Nat → ProductPage := fun _ => ⟨[⟨"sku"⟩], "tok"⟩

end Market

/-- The two Yandex.Market channels processed by market.py `main`. -/
inductive Channel where
  | fbs
  | dbs
deriving DecidableEq, Repr

/-- Control-flow model of market.py `main` (lines 446-470): all FBS
work (listing, stock update, price upload) and then all DBS work run
inside one `try` block whose handlers end the run.  The body of each
channel is network I/O, modelled as an `Except` value (`.error` = a
channel-level exception such as a timeout or connection failure).  The
result is the list of channels whose processing completed, together
with the exception the single handler reported, if any. -/
def marketMain (fbsRun dbsRun : Except String Unit) : List Channel × Option String :=
  match fbsRun with
  | .error e => ([], some e)
  | .ok _ =>
    match dbsRun with
    | .error e => ([Channel.fbs], some e)
    | .ok _ => ([Channel.fbs, Channel.dbs], none)

/-! Helper lemmas shared by the claim theorems. -/

theorem pySplitOn_ne_nil (sep : Char) (cs : List Char) : pySplitOn sep cs ≠ [] := by
  cases cs with
  | nil => simp [pySplitOn]
  | cons c cs =>
    simp only [pySplitOn]
    by_cases h : c = sep
    · simp [h]
    · simp only [if_neg h]
      cases hs : pySplitOn sep cs <;> simp

theorem pySplitOn_headD (sep : Char) (cs : List Char) :
    (pySplitOn sep cs).headD [] = cs.takeWhile (· ≠ sep) := by
  induction cs with
  | nil => simp [pySplitOn]
  | cons c cs ih =>
    simp only [pySplitOn, List.takeWhile_cons]
    by_cases h : c = sep
    · simp [h]
    · simp only [if_neg h, h, decide_not, decide_eq_true_eq]
      cases hs : pySplitOn sep cs with
      | nil => exact absurd hs (pySplitOn_ne_nil sep cs)
      | cons g gs =>
        rw [hs] at ih
        simp only [List.headD_cons] at ih
        simp [ih]

theorem create_prices_eq_filter (ws : List FeedRecord) (ids : List String) :
    create_prices ws ids =
      (ws.filter (fun w => decide (w.kod ∈ ids))).map
        (fun w => ⟨w.kod, price_conversion w.tsena⟩) := by
  induction ws with
  | nil => simp [create_prices]
  | cons w ws ih =>
    simp only [create_prices, List.filter_cons]
    by_cases h : w.kod ∈ ids
    · simp [h, ih]
    · simp [h, ih]

theorem create_prices_eq_nil (ws : List FeedRecord) (ids : List String)
    (h : ∀ w ∈ ws, w.kod ∉ ids) : create_prices ws ids = [] := by
  induction ws with
  | nil => rfl
  | cons w ws ih =>
    have hw : w.kod ∉ ids := h w (List.mem_cons_self w ws)
    simp only [create_prices, if_neg hw]
    exact ih (fun r hr => h r (List.mem_cons_of_mem w hr))

theorem stocksLoop_perm : ∀ (ws : List FeedRecord) (ids : List String)
    (ms : List StockUpdate) (rem : List String),
    stocksLoop ws ids = some (ms, rem) →
    (ms.map StockUpdate.offer_id ++ rem).Perm ids
  | [], ids, ms, rem => by
    intro h
    simp only [stocksLoop, Option.some.injEq, Prod.mk.injEq] at h
    obtain ⟨h1, h2⟩ := h
    subst h1; subst h2
    simp
  | w :: ws, ids, ms, rem => by
    intro h
    simp only [stocksLoop] at h
    by_cases hmem : w.kod ∈ ids
    · rw [if_pos hmem] at h
      cases hq : normalizeQuantity w.kolichestvo with
      | none => rw [hq] at h; exact absurd h (by simp)
      | some v =>
        rw [hq] at h
        cases hr : stocksLoop ws (ids.erase w.kod) with
        | none => rw [hr] at h; exact absurd h (by simp)
        | some p =>
          obtain ⟨ms', rest⟩ := p
          rw [hr] at h
          simp only [Option.some.injEq, Prod.mk.injEq] at h
          obtain ⟨h1, h2⟩ := h
          subst h1; subst h2
          have ih := stocksLoop_perm ws (ids.erase w.kod) ms' rest hr
          simpa using (ih.cons w.kod).trans (List.perm_cons_erase hmem).symm
    · rw [if_neg hmem] at h
      exact stocksLoop_perm ws ids ms rem h

theorem stocksLoop_rem_subset (ws : List FeedRecord) (ids : List String)
    (ms : List StockUpdate) (rem : List String)
    (h : stocksLoop ws ids = some (ms, rem)) : rem ⊆ ids := by
  intro a ha
  exact (stocksLoop_perm ws ids ms rem h).mem_iff.mp (by simp [ha])

theorem stocksLoop_find : ∀ (ws : List FeedRecord) (ids : List String)
    (ms : List StockUpdate) (rem : List String), ids.Nodup →
    stocksLoop ws ids = some (ms, rem) →
    ∀ id ∈ ids,
      (∀ w, ws.find? (fun r => r.kod == id) = some w →
          id ∉ rem ∧ ∃ u ∈ ms, u.offer_id = id ∧
            normalizeQuantity w.kolichestvo = some u.stock) ∧
      (ws.find? (fun r => r.kod == id) = none → id ∈ rem)
  | [], ids, ms, rem => by
    intro _ h id hid
    simp only [stocksLoop, Option.some.injEq, Prod.mk.injEq] at h
    obtain ⟨h1, h2⟩ := h
    subst h1; subst h2
    exact ⟨fun w hw => by simp at hw, fun _ => hid⟩
  | w :: ws, ids, ms, rem => by
    intro hn h id hid
    simp only [stocksLoop] at h
    by_cases hmem : w.kod ∈ ids
    · rw [if_pos hmem] at h
      cases hq : normalizeQuantity w.kolichestvo with
      | none => rw [hq] at h; exact absurd h (by simp)
      | some v =>
        rw [hq] at h
        cases hr : stocksLoop ws (ids.erase w.kod) with
        | none => rw [hr] at h; exact absurd h (by simp)
        | some p =>
          obtain ⟨ms', rest⟩ := p
          rw [hr] at h
          simp only [Option.some.injEq, Prod.mk.injEq] at h
          obtain ⟨h1, h2⟩ := h
          subst h1; subst h2
          by_cases hide : id = w.kod
          · have hfind : (w :: ws).find? (fun r => r.kod == id) = some w :=
              List.find?_cons_of_pos _ (by simp [hide])
            refine ⟨fun w0 hw0 => ?_, fun hnone => ?_⟩
            · rw [hfind] at hw0
              obtain rfl : w = w0 := by injection hw0
              refine ⟨fun hidrest => ?_, ⟨w.kod, v⟩, by simp, hide.symm, hq⟩
              have hmem2 : id ∈ ids.erase w.kod :=
                stocksLoop_rem_subset ws (ids.erase w.kod) ms' rest hr hidrest
              rw [hn.mem_erase_iff] at hmem2
              exact hmem2.1 hide
            · rw [hfind] at hnone
              exact absurd hnone (by simp)
          · have hfind : (w :: ws).find? (fun r => r.kod == id) =
                ws.find? (fun r => r.kod == id) :=
              List.find?_cons_of_neg _ (by simp only [beq_iff_eq]; exact Ne.symm hide)
            have hid' : id ∈ ids.erase w.kod := by
              rw [hn.mem_erase_iff]
              exact ⟨hide, hid⟩
            have ih := stocksLoop_find ws (ids.erase w.kod) ms' rest
              (hn.erase w.kod) hr id hid'
            refine ⟨fun w0 hw0 => ?_, fun hnone => ?_⟩
            · rw [hfind] at hw0
              obtain ⟨hrest, u, hu, hu1, hu2⟩ := ih.1 w0 hw0
              exact ⟨hrest, u, List.mem_cons_of_mem _ hu, hu1, hu2⟩
            · rw [hfind] at hnone
              exact ih.2 hnone
    · rw [if_neg hmem] at h
      have hide : id ≠ w.kod := fun hh => hmem (hh ▸ hid)
      have hfind : (w :: ws).find? (fun r => r.kod == id) =
          ws.find? (fun r => r.kod == id) :=
        List.find?_cons_of_neg _ (by simp only [beq_iff_eq]; exact Ne.symm hide)
      have ih := stocksLoop_find ws ids ms rem hn h id hid
      exact ⟨fun w0 hw0 => ih.1 w0 (hfind ▸ hw0), fun hnone => ih.2 (hfind ▸ hnone)⟩

theorem create_stocks_some (ws : List FeedRecord) (ids : List String)
    (stocks : List StockUpdate) (rem : List String)
    (h : create_stocks ws ids = some (stocks, rem)) :
    ∃ ms, stocksLoop ws ids = some (ms, rem) ∧
      stocks = ms ++ rem.map (fun offer_id => ⟨offer_id, 0⟩) := by
  unfold create_stocks at h
  cases hsl : stocksLoop ws ids with
  | none => rw [hsl] at h; exact absurd h (by simp)
  | some p =>
    obtain ⟨ms, remaining⟩ := p
    rw [hsl] at h
    simp only [Option.some.injEq, Prod.mk.injEq] at h
    obtain ⟨h1, h2⟩ := h
    subst h2
    exact ⟨ms, rfl, h1.symm⟩

theorem map_offer_id_zero (rem : List String) :
    List.map StockUpdate.offer_id
      (rem.map (fun offer_id => (⟨offer_id, 0⟩ : StockUpdate))) = rem := by
  induction rem with
  | nil => rfl
  | cons a l ih => simp only [List.map_cons] at ih ⊢; rw [ih]

theorem create_stocks_map_perm (ws : List FeedRecord) (ids : List String)
    (stocks : List StockUpdate) (rem : List String)
    (h : create_stocks ws ids = some (stocks, rem)) :
    (stocks.map StockUpdate.offer_id).Perm ids := by
  obtain ⟨ms, hsl, hst⟩ := create_stocks_some ws ids stocks rem h
  subst hst
  have hperm := stocksLoop_perm ws ids ms rem hsl
  rw [List.map_append, map_offer_id_zero]
  exact hperm

theorem divide_flatten {α : Type} (lst : List α) (n : Nat) (hn : 0 < n) :
    (divide lst n).flatten = lst := by
  induction lst, n using divide.induct with
  | case1 lst =>
    exact absurd hn (by simp)
  | case2 n =>
    simp [divide]
  | case3 x xs n ih =>
    simp only [divide, List.flatten_cons]
    rw [ih (Nat.succ_pos n)]
    simp [List.take_append_drop]

theorem divide_length_le {α : Type} (lst : List α) (n : Nat) :
    ∀ c ∈ divide lst n, c.length ≤ n := by
  induction lst, n using divide.induct with
  | case1 lst =>
    intro c hc
    simp [divide] at hc
  | case2 n =>
    intro c hc
    simp [divide] at hc
  | case3 x xs n ih =>
    intro c hc
    simp only [divide, List.mem_cons] at hc
    rcases hc with h | h
    · subst h
      simp only [List.length_cons, List.length_take]
      omega
    · exact ih c h

theorem divide_nil {α : Type} (n : Nat) : divide ([] : List α) n = [] := by
  cases n <;> simp [divide]

theorem seller_accPages_zero (pages : Nat → Seller.ProductPage) :
    Seller.accPages pages 0 = [] := rfl

theorem seller_accPages_succ (pages : Nat → Seller.ProductPage) (i : Nat) :
    Seller.accPages pages (i + 1) = Seller.accPages pages i ++ (pages i).items := by
  simp [Seller.accPages, List.range_succ]

theorem seller_pageLoop_run (pages : Nat → Seller.ProductPage) (k : Nat)
    (hk : Seller.stopAt pages k) (hmin : ∀ j, j < k → ¬ Seller.stopAt pages j) :
    ∀ fuel i, i ≤ k → k < i + fuel →
      Seller.pageLoop pages fuel i (Seller.accPages pages i) =
        some (Seller.accPages pages (k + 1)) := by
  intro fuel
  induction fuel with
  | zero =>
    intro i hik hfuel
    omega
  | succ fuel ih =>
    intro i hik hfuel
    simp only [Seller.pageLoop]
    rw [← seller_accPages_succ pages i]
    by_cases hstop : Seller.stopAt pages i
    · have hik2 : i = k := by
        rcases Nat.lt_or_ge i k with hlt | hge
        · exact absurd hstop (hmin i hlt)
        · omega
      subst hik2
      rw [if_pos hstop]
    · rw [if_neg hstop]
      have hik2 : i < k := by
        rcases Nat.lt_or_ge i k with hlt | hge
        · exact hlt
        · have : i = k := by omega
          exact absurd (this ▸ hk) hstop
      exact ih (i + 1) hik2 (by omega)

theorem seller_pageLoop_none (pages : Nat → Seller.ProductPage)
    (h : ∀ k, ¬ Seller.stopAt pages k) :
    ∀ fuel i, Seller.pageLoop pages fuel i (Seller.accPages pages i) = none := by
  intro fuel
  induction fuel with
  | zero =>
    intro i
    rfl
  | succ fuel ih =>
    intro i
    simp only [Seller.pageLoop]
    rw [← seller_accPages_succ pages i, if_neg (h i)]
    exact ih (i + 1)

theorem market_accPages_zero (pages : Nat → Market.ProductPage) :
    Market.accPages pages 0 = [] := rfl

theorem market_accPages_succ (pages : Nat → Market.ProductPage) (i : Nat) :
    Market.accPages pages (i + 1) =
      Market.accPages pages i ++ (pages i).offerMappingEntries := by
  simp [Market.accPages, List.range_succ]

theorem market_pageLoop_run (pages : Nat → Market.ProductPage) (k : Nat)
    (hk : Market.stopAt pages k) (hmin : ∀ j, j < k → ¬ Market.stopAt pages j) :
    ∀ fuel i, i ≤ k → k < i + fuel →
      Market.pageLoop pages fuel i (Market.accPages pages i) =
        some (Market.accPages pages (k + 1)) := by
  intro fuel
  induction fuel with
  | zero =>
    intro i hik hfuel
    omega
  | succ fuel ih =>
    intro i hik hfuel
    simp only [Market.pageLoop]
    rw [← market_accPages_succ pages i]
    by_cases hstop : Market.stopAt pages i
    · have hik2 : i = k := by
        rcases Nat.lt_or_ge i k with hlt | hge
        · exact absurd hstop (hmin i hlt)
        · omega
      subst hik2
      rw [if_pos hstop]
    · rw [if_neg hstop]
      have hik2 : i < k := by
        rcases Nat.lt_or_ge i k with hlt | hge
        · exact hlt
        · have : i = k := by omega
          exact absurd (this ▸ hk) hstop
      exact ih (i + 1) hik2 (by omega)

theorem market_pageLoop_none (pages : Nat → Market.ProductPage)
    (h : ∀ k, ¬ Market.stopAt pages k) :
    ∀ fuel i, Market.pageLoop pages fuel i (Market.accPages pages i) = none := by
  intro fuel
  induction fuel with
  | zero =>
    intro i
    rfl
  | succ fuel ih =>
    intro i
    simp only [Market.pageLoop]
    rw [← market_accPages_succ pages i, if_neg (h i)]
    exact ih (i + 1)

theorem seller_badPages_accPages (i : Nat) :
    Seller.accPages Seller.badPages i = [] := by
  induction i with
  | zero => rfl
  | succ i ih => rw [seller_accPages_succ, ih]; rfl

theorem seller_badPages_never (k : Nat) : ¬ Seller.stopAt Seller.badPages k := by
  intro h
  rw [Seller.stopAt, seller_badPages_accPages (k + 1)] at h
  have h2 : (1 : Nat) = 0 := h
  exact absurd h2 (by decide)

theorem market_badPages_never (k : Nat) : ¬ Market.stopAt Market.badPages k := by
  intro h
  have h2 : ("tok" : String) = "" := h
  exact absurd h2 (by decide)

theorem create_stocks_updates (ws : List FeedRecord) (ids : List String)
    (stocks : List StockUpdate) (rem : List String) (hn : ids.Nodup)
    (h : create_stocks ws ids = some (stocks, rem)) :
    ∀ u ∈ stocks, u.offer_id ∈ ids ∧
      (∀ w, ws.find? (fun r => r.kod == u.offer_id) = some w →
        normalizeQuantity w.kolichestvo = some u.stock) ∧
      (ws.find? (fun r => r.kod == u.offer_id) = none → u.stock = 0) := by
  intro u hu
  have hperm := create_stocks_map_perm ws ids stocks rem h
  have hnd : (stocks.map StockUpdate.offer_id).Nodup := hperm.symm.nodup hn
  have humem : u.offer_id ∈ ids := hperm.mem_iff.mp (List.mem_map_of_mem _ hu)
  obtain ⟨ms, hsl, hst⟩ := create_stocks_some ws ids stocks rem h
  have hfind := stocksLoop_find ws ids ms rem hn hsl u.offer_id humem
  refine ⟨humem, fun w hw => ?_, fun hnone => ?_⟩
  · obtain ⟨hnrem, u0, hu0m, hu0id, hu0q⟩ := hfind.1 w hw
    have hu0 : u0 ∈ stocks := by
      rw [hst]
      exact List.mem_append_left _ hu0m
    have heq : u = u0 := List.inj_on_of_nodup_map hnd hu hu0 (by rw [hu0id])
    rw [heq]
    exact hu0q
  · have hidrem : u.offer_id ∈ rem := hfind.2 hnone
    have hu1 : (⟨u.offer_id, 0⟩ : StockUpdate) ∈ stocks := by
      rw [hst]
      exact List.mem_append_right _ (List.mem_map_of_mem _ hidrem)
    have heq : u = ⟨u.offer_id, 0⟩ := List.inj_on_of_nodup_map hnd hu hu1 rfl
    exact congrArg StockUpdate.stock heq

theorem stocksLoop_append (ws1 ws2 : List FeedRecord) (ids : List String) :
    stocksLoop (ws1 ++ ws2) ids =
      match stocksLoop ws1 ids with
      | none => none
      | some (ms, mid) =>
        match stocksLoop ws2 mid with
        | none => none
        | some (ms2, rem) => some (ms ++ ms2, rem) := by
  induction ws1 generalizing ids with
  | nil =>
    simp only [List.nil_append, stocksLoop]
    cases stocksLoop ws2 ids with
    | none => rfl
    | some p => cases p; rfl
  | cons w ws1 ih =>
    simp only [List.cons_append, stocksLoop]
    by_cases hmem : w.kod ∈ ids
    · rw [if_pos hmem, if_pos hmem]
      cases hq : normalizeQuantity w.kolichestvo with
      | none => rfl
      | some v =>
        simp only [List.append_eq, ih (ids.erase w.kod)]
        cases h1 : stocksLoop ws1 (ids.erase w.kod) with
        | none => rfl
        | some p =>
          obtain ⟨ms, mid⟩ := p
          cases h2 : stocksLoop ws2 mid with
          | none => simp [h2]
          | some p2 =>
            obtain ⟨ms2, rem⟩ := p2
            simp [h2]
    · rw [if_neg hmem, if_neg hmem]
      exact ih ids

/-! The claim theorems. -/

/-- C1 (confirmed): reconciliation completeness — for every feed and every
duplicate-free registered-identifier list on which `create_stocks` succeeds,
every registered identifier appears in exactly one emitted stock update and
no identifier outside the registered list appears in any; an update whose
identifier is matched by a feed record carries the normalized quantity of its
first matching record, and an unmatched one carries count 0. -/
theorem reconciliation_completeness (ws : List FeedRecord) (ids : List String)
    (stocks : List StockUpdate) (rem : List String) (hn : ids.Nodup)
    (h : create_stocks ws ids = some (stocks, rem)) :
    (∀ id : String,
      (stocks.map StockUpdate.offer_id).count id = if id ∈ ids then 1 else 0) ∧
    (∀ u ∈ stocks, u.offer_id ∈ ids ∧
      (∀ w, ws.find? (fun r => r.kod == u.offer_id) = some w →
        normalizeQuantity w.kolichestvo = some u.stock) ∧
      (ws.find? (fun r => r.kod == u.offer_id) = none → u.stock = 0)) := by
  have hperm := create_stocks_map_perm ws ids stocks rem h
  refine ⟨fun id => ?_, create_stocks_updates ws ids stocks rem hn h⟩
  rw [hperm.count_eq id]
  by_cases hmem : id ∈ ids
  · rw [if_pos hmem]
    exact List.count_eq_one_of_mem hn hmem
  · rw [if_neg hmem]
    exact List.count_eq_zero.mpr hmem

/-- Witness for C1 at the spec's end-to-end scenario: feed row with code "1",
quantity ">10", registered identifiers ["1", "2"]. -/
theorem reconciliation_completeness_witness :
    (([⟨"1", 100⟩, ⟨"2", 0⟩] : List StockUpdate).map StockUpdate.offer_id).count "1"
      = 1 := by
  have h := (reconciliation_completeness [⟨"1", ">10", "5'990.00 руб."⟩] ["1", "2"]
    [⟨"1", 100⟩, ⟨"2", 0⟩] ["2"] (by decide) (by decide)).1 "1"
  rw [h, if_pos (by decide : ("1" : String) ∈ ["1", "2"])]

/-- C2 (confirmed): quantity normalization policy — a matched feed record with
stringified quantity ">10" yields stock 100, "1" yields stock 0, and any other
value yields its integer parse (so "5" yields 5 and "0" yields 0). -/
theorem quantity_bucketing :
    (∀ ws ids stocks rem, ids.Nodup → create_stocks ws ids = some (stocks, rem) →
      ∀ u ∈ stocks, ∀ w, ws.find? (fun r => r.kod == u.offer_id) = some w →
        normalizeQuantity w.kolichestvo = some u.stock) ∧
    (∀ kod tsena, create_stocks [⟨kod, ">10", tsena⟩] [kod] =
      some ([⟨kod, 100⟩], [])) ∧
    (∀ kod tsena, create_stocks [⟨kod, "1", tsena⟩] [kod] =
      some ([⟨kod, 0⟩], [])) ∧
    (∀ kod q tsena, q ≠ ">10" → q ≠ "1" →
      create_stocks [⟨kod, q, tsena⟩] [kod] =
        (pyInt q).map (fun v => ([⟨kod, v⟩], []))) ∧
    normalizeQuantity "5" = some 5 ∧ normalizeQuantity "0" = some 0 := by
  refine ⟨fun ws ids stocks rem hn h u hu w hw =>
      (create_stocks_updates ws ids stocks rem hn h u hu).2.1 w hw,
    fun kod tsena => ?_, fun kod tsena => ?_,
    fun kod q tsena h1 h2 => ?_, by decide, by decide⟩
  · simp [create_stocks, stocksLoop, normalizeQuantity]
  · simp [create_stocks, stocksLoop, normalizeQuantity]
  · have hmem : kod ∈ [kod] := List.mem_singleton.mpr rfl
    have hq : normalizeQuantity q = pyInt q := by
      simp [normalizeQuantity, h1, h2]
    simp only [create_stocks, stocksLoop]
    rw [if_pos hmem, hq, List.erase_cons_head]
    cases hpq : pyInt q with
    | none => rfl
    | some v => rfl

/-- Witness for C2: a quantity of "5" yields a stock of 5. -/
theorem quantity_bucketing_witness :
    create_stocks [⟨"w", "5", "p"⟩] ["w"] = some ([⟨"w", 5⟩], []) := by
  have h := quantity_bucketing.2.2.2.1 "w" "5" "p" (by decide) (by decide)
  rw [h]
  decide

/-- C3 (confirmed): price normalization — `price_conversion` returns exactly
the digit characters of the part of the raw price before the first dot, and on
"5'990.00 руб." / "24'570.00 руб." the result parses to 5990 / 24570. -/
theorem price_normalization :
    (∀ price : String, price_conversion price =
      String.mk ((price.toList.takeWhile (· ≠ '.')).filter Char.isDigit)) ∧
    price_conversion "5'990.00 руб." = "5990" ∧
    price_conversion "24'570.00 руб." = "24570" ∧
    pyInt (price_conversion "5'990.00 руб.") = some 5990 ∧
    pyInt (price_conversion "24'570.00 руб.") = some 24570 := by
  refine ⟨fun price => ?_, by decide, by decide, by decide, by decide⟩
  rw [price_conversion, pySplitOn_headD]

/-- C4 counterexample: with a duplicated identifier in `offer_ids` the claim
fails — after `create_stocks` on ["1", "1"] one copy of "1" is left in the
shared list, so the subsequent `create_prices` call is not empty. -/
theorem prices_after_stocks_cex :
    create_stocks [⟨"1", "5", "99"⟩] ["1", "1"] =
      some ([⟨"1", 5⟩, ⟨"1", 0⟩], ["1"]) ∧
    create_prices [⟨"1", "5", "99"⟩] ["1"] = [⟨"1", "99"⟩] ∧
    create_prices [⟨"1", "5", "99"⟩] ["1"] ≠ [] :=
  ⟨by decide, by decide, by decide⟩

/-- C4 (amended): when the registered-identifier list is duplicate-free and
`create_stocks` succeeds, the `create_prices` call that seller.py `main` makes
next on the same (now mutated) list returns the empty list: every remaining
identifier occurs in no feed record. -/
theorem prices_after_stocks_empty (ws : List FeedRecord) (ids : List String)
    (stocks : List StockUpdate) (rem : List String) (hn : ids.Nodup)
    (h : create_stocks ws ids = some (stocks, rem)) :
    create_prices ws rem = [] := by
  apply create_prices_eq_nil
  intro w hw hwrem
  obtain ⟨ms, hsl, hst⟩ := create_stocks_some ws ids stocks rem h
  have hwid : w.kod ∈ ids := stocksLoop_rem_subset ws ids ms rem hsl hwrem
  have hsome : (ws.find? (fun r => r.kod == w.kod)).isSome := by
    rw [List.find?_isSome]
    exact ⟨w, hw, by simp⟩
  obtain ⟨w0, hw0⟩ := Option.isSome_iff_exists.mp hsome
  have hres := (stocksLoop_find ws ids ms rem hn hsl w.kod hwid).1 w0 hw0
  exact hres.1 hwrem

/-- Witness for C4 (amended): after reconciling one matched record, the price
pass over the leftover identifier list produces nothing. -/
theorem prices_after_stocks_empty_witness :
    create_prices [⟨"1", "5", "99"⟩] ["2"] = [] :=
  prices_after_stocks_empty [⟨"1", "5", "99"⟩] ["1", "2"] [⟨"1", 5⟩, ⟨"2", 0⟩] ["2"]
    (by decide) (by decide)

/-- C5 (code bug): `create_stocks` mutates its `offer_ids` argument in place —
at this input the list after the call (["2"], the second component of the
model's result) differs from its value before the call (["1", "2"]),
contradicting the spec's working-copy design. -/
theorem offer_ids_mutated :
    create_stocks [⟨"1", "5", "p"⟩] ["1", "2"] =
      some ([⟨"1", 5⟩, ⟨"2", 0⟩], ["2"]) ∧
    (["2"] : List String) ≠ ["1", "2"] :=
  ⟨by decide, by decide⟩

/-- C6 counterexample: two feed records sharing code "1", both matched, yield
two price updates — the second record also determines an emitted update, so
"at most one price update per identifier" fails. -/
theorem first_occurrence_prices_cex :
    create_prices [⟨"1", "5", "10"⟩, ⟨"1", "7", "20"⟩] ["1"] =
      [⟨"1", "10"⟩, ⟨"1", "20"⟩] ∧
    ¬ (create_prices [⟨"1", "5", "10"⟩, ⟨"1", "7", "20"⟩] ["1"]).length ≤ 1 :=
  ⟨by decide, by decide⟩

/-- C6 (amended): the first-occurrence tie-break holds for stock updates — at
most one stock update per identifier, its count determined by the first
matching feed record — while `create_prices` emits one price update per
matching feed record, so duplicated codes yield one price update each. -/
theorem first_occurrence_amended :
    (∀ ws ids stocks rem, ids.Nodup → create_stocks ws ids = some (stocks, rem) →
      ∀ id : String, (stocks.map StockUpdate.offer_id).count id ≤ 1 ∧
        ∀ u ∈ stocks, ∀ w, ws.find? (fun r => r.kod == u.offer_id) = some w →
          normalizeQuantity w.kolichestvo = some u.stock) ∧
    (∀ ws ids, create_prices ws ids =
      (ws.filter (fun w => decide (w.kod ∈ ids))).map
        (fun w => ⟨w.kod, price_conversion w.tsena⟩)) := by
  constructor
  · intro ws ids stocks rem hn h id
    have hperm := create_stocks_map_perm ws ids stocks rem h
    have hnd : (stocks.map StockUpdate.offer_id).Nodup := hperm.symm.nodup hn
    refine ⟨List.nodup_iff_count_le_one.mp hnd id, fun u hu w hw => ?_⟩
    exact ((create_stocks_updates ws ids stocks rem hn h u hu).2.1) w hw
  · exact create_prices_eq_filter

/-- Witness for C6 (amended): on a one-record feed the identifier "5" heads at
most one stock update. -/
theorem first_occurrence_amended_witness :
    (([⟨"5", 2⟩, ⟨"6", 0⟩] : List StockUpdate).map StockUpdate.offer_id).count "5"
      ≤ 1 :=
  ((first_occurrence_amended.1 [⟨"5", "2", "x"⟩] ["5", "6"] [⟨"5", 2⟩, ⟨"6", 0⟩]
    ["6"] (by decide) (by decide)) "5").1

/-- C7 (confirmed): batcher correctness — for every list and every chunk size
n > 0, concatenating the chunks of `divide` in order reproduces the list,
every chunk has length at most n, and `divide` of the empty list yields no
chunks. -/
theorem batcher_divide_correct {α : Type} (lst : List α) (n : Nat) (hn : 0 < n) :
    (divide lst n).flatten = lst ∧ (∀ c ∈ divide lst n, c.length ≤ n) ∧
    divide ([] : List α) n = [] :=
  ⟨divide_flatten lst n hn, divide_length_le lst n, divide_nil n⟩

/-- Witness for C7 at list [1, 2, 3, 4, 5] and chunk size 2. -/
theorem batcher_divide_correct_witness :
    (divide [1, 2, 3, 4, 5] 2).flatten = [1, 2, 3, 4, 5] :=
  (batcher_divide_correct [1, 2, 3, 4, 5] 2 (by decide)).1

/-- C8 counterexample: on malformed pagination state — Ozon pages always
reporting total 1 while carrying no items, Yandex.Market pages always
repeating the non-empty token "tok" — both `get_offer_ids` loops run out of
every fuel bound instead of aborting with a stall error. -/
theorem pagination_stall_cex :
    Seller.neverFinishes Seller.badPages ∧ Market.neverFinishes Market.badPages := by
  constructor
  · intro fuel
    unfold Seller.get_offer_ids
    rw [show ([] : List Seller.Product) = Seller.accPages Seller.badPages 0 from rfl,
      seller_pageLoop_none Seller.badPages seller_badPages_never fuel 0]
    rfl
  · intro fuel
    unfold Market.get_offer_ids
    rw [show ([] : List Market.OfferEntry) = Market.accPages Market.badPages 0 from rfl,
      market_pageLoop_none Market.badPages market_badPages_never fuel 0]
    rfl

/-- C8 (amended): each channel's `get_offer_ids` terminates exactly when its
stop condition first holds — returning the concatenation of the pages'
identifiers through that page — and when the stop condition never holds
(malformed pagination state) the loop never terminates; no stall error is
raised. -/
theorem pagination_amended :
    (∀ (pages : Nat → Seller.ProductPage) (k fuel : Nat),
      Seller.stopAt pages k → (∀ j, j < k → ¬ Seller.stopAt pages j) → k < fuel →
      Seller.get_offer_ids pages fuel =
        some ((Seller.accPages pages (k + 1)).map Seller.Product.offer_id)) ∧
    (∀ (pages : Nat → Seller.ProductPage) (fuel : Nat),
      (∀ k, ¬ Seller.stopAt pages k) → Seller.get_offer_ids pages fuel = none) ∧
    (∀ (pages : Nat → Market.ProductPage) (k fuel : Nat),
      Market.stopAt pages k → (∀ j, j < k → ¬ Market.stopAt pages j) → k < fuel →
      Market.get_offer_ids pages fuel =
        some ((Market.accPages pages (k + 1)).map Market.OfferEntry.shopSku)) ∧
    (∀ (pages : Nat → Market.ProductPage) (fuel : Nat),
      (∀ k, ¬ Market.stopAt pages k) → Market.get_offer_ids pages fuel = none) := by
  refine ⟨fun pages k fuel hk hmin hfuel => ?_, fun pages fuel hnever => ?_,
    fun pages k fuel hk hmin hfuel => ?_, fun pages fuel hnever => ?_⟩
  · unfold Seller.get_offer_ids
    rw [show ([] : List Seller.Product) = Seller.accPages pages 0 from rfl,
      seller_pageLoop_run pages k hk hmin fuel 0 (Nat.zero_le k) (by omega)]
    rfl
  · unfold Seller.get_offer_ids
    rw [show ([] : List Seller.Product) = Seller.accPages pages 0 from rfl,
      seller_pageLoop_none pages hnever fuel 0]
    rfl
  · unfold Market.get_offer_ids
    rw [show ([] : List Market.OfferEntry) = Market.accPages pages 0 from rfl,
      market_pageLoop_run pages k hk hmin fuel 0 (Nat.zero_le k) (by omega)]
    rfl
  · unfold Market.get_offer_ids
    rw [show ([] : List Market.OfferEntry) = Market.accPages pages 0 from rfl,
      market_pageLoop_none pages hnever fuel 0]
    rfl

/-- Witness for C8 (amended): a well-formed single-page Ozon response (two
items, total 2) yields exactly its two identifiers. -/
theorem pagination_amended_witness :
    Seller.get_offer_ids (fun _ => (⟨[⟨"a"⟩, ⟨"b"⟩], 2⟩ : Seller.ProductPage)) 1 =
      some ["a", "b"] := by
  have h := pagination_amended.1
    (fun _ => (⟨[⟨"a"⟩, ⟨"b"⟩], 2⟩ : Seller.ProductPage)) 0 1
    (by decide) (fun j hj => absurd hj (Nat.not_lt_zero j)) (by decide)
  rw [h]
  decide

/-- C9 counterexample: a feed whose second record carries the unparseable
quantity "oops" makes `create_stocks` return nothing at all — the first,
well-formed record's update is lost too, so the failure is not per-record. -/
theorem malformed_quantity_cex :
    create_stocks [⟨"1", "5", "a"⟩, ⟨"2", "oops", "b"⟩] ["1", "2"] = none := by
  decide

/-- C9 (amended): a matched feed record whose quantity parses to no integer
aborts the whole `create_stocks` call — `int` raises, no update list is
returned at all, and the exception propagates to the caller's catch-all;
malformed records are not skipped individually. -/
theorem malformed_quantity_aborts (ws1 ws2 : List FeedRecord) (w : FeedRecord)
    (ids mid : List String) (ms : List StockUpdate)
    (h1 : stocksLoop ws1 ids = some (ms, mid)) (hmem : w.kod ∈ mid)
    (hq : normalizeQuantity w.kolichestvo = none) :
    create_stocks (ws1 ++ w :: ws2) ids = none := by
  have h2 : stocksLoop (w :: ws2) mid = none := by
    simp [stocksLoop, hmem, hq]
  unfold create_stocks
  rw [stocksLoop_append]
  simp only [h1, h2]

/-- Witness for C9 (amended): the malformed second record "x7" wipes out the
whole result. -/
theorem malformed_quantity_aborts_witness :
    create_stocks [⟨"1", "5", "a"⟩, ⟨"2", "x7", "b"⟩] ["1", "2"] = none :=
  malformed_quantity_aborts [⟨"1", "5", "a"⟩] [] ⟨"2", "x7", "b"⟩ ["1", "2"] ["2"]
    [⟨"1", 5⟩] (by decide) (by decide) (by decide)

/-- C10 counterexample: when the FBS channel's processing raises, market.py
`main`'s single try block skips the DBS channel entirely — no per-channel
outcome for DBS is produced. -/
theorem channel_isolation_cex :
    marketMain (Except.error "ReadTimeout") (Except.ok ()) =
      ([], some "ReadTimeout") ∧
    Channel.dbs ∉ (marketMain (Except.error "ReadTimeout") (Except.ok ())).1 :=
  ⟨rfl, by decide⟩

/-- C10 (amended): channels are not isolated in market.py `main`: a
channel-level failure in the FBS channel aborts the run before any DBS work,
so DBS is processed only when FBS succeeds, and the single handler reports
just the one exception. -/
theorem channel_isolation_amended (e : String) (dbsRun : Except String Unit) :
    marketMain (Except.error e) dbsRun = ([], some e) ∧
    Channel.dbs ∉ (marketMain (Except.error e) dbsRun).1 ∧
    marketMain (Except.ok ()) (Except.ok ()) =
      ([Channel.fbs, Channel.dbs], none) :=
  ⟨rfl, by simp [marketMain], rfl⟩

end SellerApis

